import Mathlib

/-!
Shallow embedding of `ssb-multiformats`' `src/multibox.rs`.

Bytes are modelled as `List Nat` (each element a byte value `< 256`); slices
`&[u8]` become suffix lists, and returning a remainder slice becomes returning
the remainder list.  The two external collaborator crates (`base64` with the
`STANDARD` config, and `varu64`) are modelled from their documented contracts:
RFC 4648 standard-alphabet base64 with `=` padding and a lenient decoder that
accepts unpadded input, and the canonical varu64 variable-length integer
encoding.  `io::Error` never arises when writing into a `Vec<u8>`, so the
encoders are modelled as pure functions producing the written bytes.
-/

namespace Multiformats

/-- Character of the RFC 4648 standard base64 alphabet at index `i`
(`A`–`Z`, `a`–`z`, `0`–`9`, `+`, `/`), as an ASCII byte. -/
def b64char (i : Nat) : Nat :=
  if i < 26 then 65 + i
  else if i < 52 then 97 + (i - 26)
  else if i < 62 then 48 + (i - 52)
  else if i = 62 then 43
  else 47

/-- Index of an ASCII byte in the standard base64 alphabet, `none` when the
byte is not an alphabet character. -/
def b64index (c : Nat) : Option Nat :=
  if 65 ≤ c ∧ c ≤ 90 then some (c - 65)
  else if 97 ≤ c ∧ c ≤ 122 then some (c - 97 + 26)
  else if 48 ≤ c ∧ c ≤ 57 then some (c - 48 + 52)
  else if c = 43 then some 62
  else if c = 47 then some 63
  else none

/-- Base64 encoding of a byte list without the trailing `=` padding:
three input bytes become four alphabet characters, a final group of one or
two bytes becomes two or three characters. -/
def b64raw : List Nat → List Nat
  | [] => []
  | [b0] => [b64char (b0 / 4), b64char (b0 % 4 * 16)]
  | [b0, b1] =>
    [b64char (b0 / 4), b64char (b0 % 4 * 16 + b1 / 16), b64char (b1 % 16 * 4)]
  | b0 :: b1 :: b2 :: rest =>
    b64char (b0 / 4) :: b64char (b0 % 4 * 16 + b1 / 16) ::
      b64char (b1 % 16 * 4 + b2 / 64) :: b64char (b2 % 64) :: b64raw rest

/-- Model of `base64::encode_config(bytes, base64::STANDARD)`: standard
alphabet with `=` padding up to a multiple of four characters. -/
def b64encode (bytes : List Nat) : List Nat :=
  b64raw bytes ++ List.replicate ((3 - bytes.length % 3) % 3) 61

/-- Decodes a padding-free base64 character sequence.  Complete groups of four
characters yield three bytes; a final group of two or three characters yields
one or two bytes provided the unused low bits of the last character are zero
(the decoder rejects nonzero trailing bits); a final group of one character is
invalid. -/
def b64decodeBody : List Nat → Option (List Nat)
  | [] => some []
  | [_] => none
  | [c0, c1] =>
    match b64index c0, b64index c1 with
    | some i0, some i1 =>
      if i1 % 16 = 0 then some [i0 * 4 + i1 / 16] else none
    | _, _ => none
  | [c0, c1, c2] =>
    match b64index c0, b64index c1, b64index c2 with
    | some i0, some i1, some i2 =>
      if i2 % 4 = 0 then
        some [i0 * 4 + i1 / 16, i1 % 16 * 16 + i2 / 4]
      else none
    | _, _, _ => none
  | c0 :: c1 :: c2 :: c3 :: rest =>
    match b64index c0, b64index c1, b64index c2, b64index c3 with
    | some i0, some i1, some i2, some i3 =>
      match b64decodeBody rest with
      | some bs =>
        some ((i0 * 4 + i1 / 16) :: (i1 % 16 * 16 + i2 / 4) :: (i2 % 4 * 64 + i3) :: bs)
      | none => none
    | _, _, _, _ => none

/-- Length of the initial run of bytes equal to `b`. -/
def leadingEq (b : Nat) : List Nat → Nat
  | [] => 0
  | x :: rest => if x = b then leadingEq b rest + 1 else 0

/-- Number of trailing `=` (ASCII 61) characters. -/
def padCount (s : List Nat) : Nat := leadingEq 61 s.reverse

/-- Model of `base64::decode_config(data, base64::STANDARD)`: at most two
trailing `=` padding characters, padding only when it completes a four-character
block, `=` nowhere else, and the padding-free body decoded by `b64decodeBody`.
The decoder is lenient about missing padding: a body whose length is 2 or 3
modulo 4 decodes without any `=`.  (The concrete error value of the crate is
abstracted away: `none` stands for any decode error.) -/
def b64decode (data : List Nat) : Option (List Nat) :=
  if 2 < padCount data then none
  else if 0 < padCount data ∧ data.length % 4 ≠ 0 then none
  else if (data.take (data.length - padCount data)).any (fun c => c = 61) then none
  else b64decodeBody (data.take (data.length - padCount data))

/-- Model of `varu64::DecodeError`. -/
inductive Varu64Error
  | UnexpectedEndOfInput
  | NonCanonical

/-- Big-endian value of a byte list. -/
def beVal (l : List Nat) : Nat := l.foldl (fun acc b => acc * 256 + b) 0

/-- The `k` big-endian bytes of `n` (low bytes of `n` when `n ≥ 256 ^ k`). -/
def beBytes : Nat → Nat → List Nat
  | 0, _ => []
  | k + 1, n => beBytes k (n / 256) ++ [n % 256]

/-- Model of the canonical varu64 encoding: values below 248 are a single
byte; otherwise a marker byte `247 + k` followed by the `k` big-endian bytes
of the value, with `k` minimal. -/
def varu64Encode (n : Nat) : List Nat :=
  if n < 248 then [n]
  else if n < 256 then 248 :: beBytes 1 n
  else if n < 256 ^ 2 then 249 :: beBytes 2 n
  else if n < 256 ^ 3 then 250 :: beBytes 3 n
  else if n < 256 ^ 4 then 251 :: beBytes 4 n
  else if n < 256 ^ 5 then 252 :: beBytes 5 n
  else if n < 256 ^ 6 then 253 :: beBytes 6 n
  else if n < 256 ^ 7 then 254 :: beBytes 7 n
  else 255 :: beBytes 8 n

/-- Model of `varu64::decode`: a first byte below 248 is the value itself;
a marker byte `247 + k` requires `k` further bytes, read big-endian, and the
result must not fit a shorter encoding (else `NonCanonical`). -/
def varu64Decode (s : List Nat) : Except Varu64Error (Nat × List Nat) :=
  match s with
  | [] => Except.error Varu64Error.UnexpectedEndOfInput
  | b :: rest =>
    if b < 248 then Except.ok (b, rest)
    else if rest.length < b - 247 then Except.error Varu64Error.UnexpectedEndOfInput
    else if beVal (rest.take (b - 247)) < 256 ^ (b - 248)
        ∨ (b = 248 ∧ beVal (rest.take (b - 247)) < 248) then
      Except.error Varu64Error.NonCanonical
    else Except.ok (beVal (rest.take (b - 247)), rest.drop (b - 247))

/-- Modelled from the spec: the crate-root helper `split_at_byte` (declared in
the crate root, which is not among the provided sources) scans for the first
occurrence of byte `b`, returning the bytes strictly before it and the bytes
strictly after it, or `none` when `b` does not occur. -/
def split_at_byte (s : List Nat) (b : Nat) : Option (List Nat × List Nat) :=
  match s with
  | [] => none
  | x :: rest =>
    if x = b then some ([], rest)
    else
      match split_at_byte rest b with
      | some (pre, post) => some (x :: pre, post)
      | none => none

/-- Modelled from the spec: the crate-root helper `skip_prefix` (declared in
the crate root, which is not among the provided sources) returns the input
without its prefix `p` when the input starts with the literal `p`, and `none`
otherwise. -/
def dropLiteral : List Nat → List Nat → Option (List Nat)
  | s, [] => some s
  | [], _ :: _ => none
  | x :: xs, y :: ys => if x = y then dropLiteral xs ys else none

/-- The `Multibox` type: the public newtype wrapper and the private enum
`_Multibox` are collapsed into one inductive with the single `PrivateBox`
variant carrying the owned ciphertext bytes. -/
inductive Multibox
  | PrivateBox (cyphertext : List Nat)

/-- The ciphertext bytes carried by a `Multibox`. -/
def Multibox.payload : Multibox → List Nat
  | Multibox.PrivateBox bytes => bytes

/-- Model of `DecodeLegacyError` (the `base64::DecodeError` payload of
`InvalidBase64` is abstracted away). -/
inductive DecodeLegacyError
  | NoDot
  | InvalidBase64
  | NoncanonicPadding
  | UnknownSuffix
  | NoTerminatingQuote

/-- Model of `DecodeCompactError`. -/
inductive DecodeCompactError
  | InvalidType (e : Varu64Error)
  | InvalidLength (e : Varu64Error)
  | NotEnoughInput

/-- Model of `Multibox::from_legacy`: split at the first `.` (0x2E), require
the literal `box` after it, require the next byte after `box` to be the first
`"` (0x22), base64-decode the part before the dot, and reject a data part
whose length is not a multiple of four as `NoncanonicPadding`. -/
def from_legacy (s : List Nat) : Except DecodeLegacyError (Multibox × List Nat) :=
  match split_at_byte s 0x2E with
  | none => Except.error DecodeLegacyError.NoDot
  | some (data, suffix) =>
    match dropLiteral suffix [0x62, 0x6F, 0x78] with
    | none => Except.error DecodeLegacyError.UnknownSuffix
    | some tail =>
      match split_at_byte tail 0x22 with
      | none => Except.error DecodeLegacyError.NoTerminatingQuote
      | some (suffix2, tail2) =>
        if suffix2.length ≠ 0 then Except.error DecodeLegacyError.UnknownSuffix
        else
          match b64decode data with
          | some cypher_raw =>
            if data.length % 4 ≠ 0 then Except.error DecodeLegacyError.NoncanonicPadding
            else Except.ok (Multibox.PrivateBox cypher_raw, tail2)
          | none => Except.error DecodeLegacyError.InvalidBase64

/-- Model of `Multibox::to_legacy`: the bytes written to the sink, namely the
standard-padded base64 encoding of the ciphertext followed by the literal
`.box`.  (Writing into a `Vec<u8>` cannot fail, so the `io::Error` channel is
dropped.) -/
def to_legacy (m : Multibox) : List Nat :=
  match m with
  | Multibox.PrivateBox bytes => b64encode bytes ++ [0x2E, 0x62, 0x6F, 0x78]

/-- Model of `Multibox::to_legacy_vec`: `to_legacy` into a fresh `Vec<u8>`;
the `unwrap` there can never panic because `Vec` writes are infallible. -/
def to_legacy_vec (m : Multibox) : List Nat := to_legacy m

/-- Model of `Multibox::to_legacy_string`: the UTF-8 bytes of the string built
from `to_legacy_vec` without a UTF-8 check
(`String::from_utf8_unchecked`). -/
def to_legacy_string (m : Multibox) : List Nat := to_legacy_vec m

/-- Model of `Multibox::from_compact`.  The `panic!()` on a nonzero type tag
is modelled as `none`; a normal return (ok or error) is `some`. -/
def from_compact (s : List Nat) :
    Option (Except DecodeCompactError (Multibox × List Nat)) :=
  match varu64Decode s with
  | Except.ok (type0, tail) =>
    if type0 ≠ 0 then none
    else
      match varu64Decode tail with
      | Except.ok (len, tail2) =>
        if tail2.length < len then
          some (Except.error DecodeCompactError.NotEnoughInput)
        else
          some (Except.ok (Multibox.PrivateBox (tail2.take len), tail2.drop len))
      | Except.error e => some (Except.error (DecodeCompactError.InvalidLength e))
  | Except.error e => some (Except.error (DecodeCompactError.InvalidType e))

/-- Model of `Multibox::to_compact`: a zero type byte, the varu64 encoding of
the payload length, then the payload bytes. -/
def to_compact (m : Multibox) : List Nat :=
  match m with
  | Multibox.PrivateBox bytes => 0 :: (varu64Encode bytes.length ++ bytes)

/-! ### Lemmas about the spec-modelled crate-root helpers -/

theorem split_at_byte_eq {s : List Nat} {b : Nat} {p q : List Nat}
    (h : split_at_byte s b = some (p, q)) : s = p ++ b :: q ∧ b ∉ p := by
  induction s generalizing p q with
  | nil => simp [split_at_byte] at h
  | cons x rest ih =>
    by_cases hx : x = b
    · simp [split_at_byte, hx] at h
      obtain ⟨hp, hq⟩ := h
      subst hp
      subst hq
      simp [hx]
    · rcases hsp : split_at_byte rest b with _ | ⟨p1, q1⟩
      · simp [split_at_byte, hx, hsp] at h
      · simp [split_at_byte, hx, hsp] at h
        obtain ⟨hp, hq⟩ := h
        obtain ⟨h1, h2⟩ := ih hsp
        subst hq
        constructor
        · rw [← hp]
          simp [h1]
        · rw [← hp]
          simp [h2]
          intro he
          exact hx he.symm

theorem split_at_byte_of_not_mem {s : List Nat} {b : Nat} (h : b ∉ s) :
    split_at_byte s b = none := by
  induction s with
  | nil => rfl
  | cons x rest ih =>
    simp at h
    have hx : ¬x = b := fun he => h.1 he.symm
    simp [split_at_byte, hx, ih h.2]

theorem split_at_byte_append {p : List Nat} {b : Nat} (q : List Nat) (h : b ∉ p) :
    split_at_byte (p ++ b :: q) b = some (p, q) := by
  induction p with
  | nil => simp [split_at_byte]
  | cons x rest ih =>
    simp at h
    have hx : ¬x = b := fun he => h.1 he.symm
    simp [split_at_byte, hx, ih h.2]

theorem dropLiteral_append (p t : List Nat) : dropLiteral (p ++ t) p = some t := by
  induction p with
  | nil => simp [dropLiteral]
  | cons x rest ih => simpa [dropLiteral] using ih

theorem dropLiteral_eq {s p t : List Nat} (h : dropLiteral s p = some t) :
    s = p ++ t := by
  induction p generalizing s with
  | nil =>
    simp [dropLiteral] at h
    simp [h]
  | cons y ys ih =>
    cases s with
    | nil => simp [dropLiteral] at h
    | cons x rest =>
      by_cases hx : x = y
      · simp [dropLiteral, hx] at h
        simp [hx, ih h]
      · simp [dropLiteral, hx] at h

theorem dropLiteral_of_no_concat {s p : List Nat} (h : ∀ t, s ≠ p ++ t) :
    dropLiteral s p = none := by
  rcases hd : dropLiteral s p with _ | t
  · rfl
  · exact absurd (dropLiteral_eq hd) (h t)

/-! ### Lemmas about the base64 model -/

theorem b64char_props (i : Nat) :
    b64char i < 128 ∧ b64char i ≠ 46 ∧ b64char i ≠ 34 ∧ b64char i ≠ 61 := by
  unfold b64char
  split_ifs <;> omega

theorem b64raw_mem : ∀ (bytes : List Nat), ∀ c ∈ b64raw bytes, ∃ i, c = b64char i
  | [] => by
    intro c h
    simp [b64raw] at h
  | [b0] => by
    intro c h
    simp [b64raw] at h
    rcases h with h | h <;> exact ⟨_, h⟩
  | [b0, b1] => by
    intro c h
    simp [b64raw] at h
    rcases h with h | h | h <;> exact ⟨_, h⟩
  | b0 :: b1 :: b2 :: rest => by
    intro c h
    simp [b64raw] at h
    rcases h with h | h | h | h | h
    · exact ⟨_, h⟩
    · exact ⟨_, h⟩
    · exact ⟨_, h⟩
    · exact ⟨_, h⟩
    · exact b64raw_mem rest c h

theorem b64encode_mem {bytes : List Nat} :
    ∀ c ∈ b64encode bytes, c < 128 ∧ c ≠ 46 ∧ c ≠ 34 := by
  intro c h
  rcases List.mem_append.1 h with h1 | h1
  · obtain ⟨i, hi⟩ := b64raw_mem bytes c h1
    have := b64char_props i
    omega
  · have := List.eq_of_mem_replicate h1
    omega

theorem b64raw_not_61 (bytes : List Nat) : 61 ∉ b64raw bytes := by
  intro h
  obtain ⟨i, hi⟩ := b64raw_mem bytes 61 h
  have := b64char_props i
  omega

theorem b64raw_length : ∀ bytes : List Nat,
    (b64raw bytes).length =
      4 * (bytes.length / 3) +
        (if bytes.length % 3 = 0 then 0 else bytes.length % 3 + 1)
  | [] => by simp [b64raw]
  | [b0] => by simp [b64raw]
  | [b0, b1] => by simp [b64raw]
  | b0 :: b1 :: b2 :: rest => by
    have ih := b64raw_length rest
    simp [b64raw] at ih ⊢
    rw [ih]
    have h2 : (rest.length + 1 + 1 + 1) % 3 = rest.length % 3 := by omega
    rw [h2]
    have h3 : rest.length % 3 = 0 ∨ rest.length % 3 = 1 ∨ rest.length % 3 = 2 := by omega
    rcases h3 with h | h | h <;> simp [h] <;> omega

theorem b64encode_length_mod4 (bytes : List Nat) :
    (b64encode bytes).length % 4 = 0 := by
  have := b64raw_length bytes
  simp [b64encode]
  split_ifs at this <;> omega

theorem leadingEq_replicate_append (b k : Nat) (l : List Nat) :
    leadingEq b (List.replicate k b ++ l) = k + leadingEq b l := by
  induction k with
  | zero => simp
  | succ n ih => simp [List.replicate_succ, leadingEq, ih]; omega

theorem leadingEq_of_not_mem {b : Nat} {l : List Nat} (h : b ∉ l) :
    leadingEq b l = 0 := by
  cases l with
  | nil => rfl
  | cons x rest =>
    simp at h
    have hx : ¬x = b := fun he => h.1 he.symm
    simp [leadingEq, hx]

theorem leadingEq_prefix_decomp (b : Nat) :
    ∀ l : List Nat, ∃ r, l = List.replicate (leadingEq b l) b ++ r := by
  intro l
  induction l with
  | nil => exact ⟨[], rfl⟩
  | cons x rest ih =>
    by_cases hx : x = b
    · obtain ⟨r, hr⟩ := ih
      refine ⟨r, ?_⟩
      simp [leadingEq, hx, List.replicate_succ]
      exact hr
    · exact ⟨x :: rest, by simp [leadingEq, hx]⟩

theorem padCount_encode (bytes : List Nat) :
    padCount (b64encode bytes) = (3 - bytes.length % 3) % 3 := by
  unfold padCount b64encode
  rw [List.reverse_append, List.reverse_replicate, leadingEq_replicate_append,
    leadingEq_of_not_mem (by simpa using b64raw_not_61 bytes)]
  omega

theorem padCount_split (data : List Nat) :
    data.take (data.length - padCount data) ++
      List.replicate (padCount data) 61 = data := by
  obtain ⟨r, hr⟩ := leadingEq_prefix_decomp 61 data.reverse
  have hlen : data.length = padCount data + r.length := by
    have := congrArg List.length hr
    simpa [padCount] using this
  have hdata : data = r.reverse ++ List.replicate (padCount data) 61 := by
    have := congrArg List.reverse hr
    simpa [padCount] using this
  have hsub : data.length - padCount data = r.reverse.length := by simp; omega
  have htake : data.take (data.length - padCount data) = r.reverse := by
    rw [hsub]
    conv_lhs => rw [hdata]
    exact List.take_left _ _
  rw [htake, ← hdata]

theorem b64index_b64char : ∀ i, i < 64 → b64index (b64char i) = some i := by decide

theorem b64decodeBody_cons {c0 c1 c2 c3 i0 i1 i2 i3 : Nat} {rest bs : List Nat}
    (h0 : b64index c0 = some i0) (h1 : b64index c1 = some i1)
    (h2 : b64index c2 = some i2) (h3 : b64index c3 = some i3)
    (hr : b64decodeBody rest = some bs) :
    b64decodeBody (c0 :: c1 :: c2 :: c3 :: rest) =
      some ((i0 * 4 + i1 / 16) :: (i1 % 16 * 16 + i2 / 4) :: (i2 % 4 * 64 + i3) :: bs) := by
  simp only [b64decodeBody, h0, h1, h2, h3, hr]

theorem b64decodeBody_raw :
    ∀ bytes : List Nat, (∀ b ∈ bytes, b < 256) →
      b64decodeBody (b64raw bytes) = some bytes
  | [] => by
    intro _
    simp [b64raw, b64decodeBody]
  | [b0] => by
    intro h
    have hb0 : b0 < 256 := h b0 (by simp)
    have h0 : b64index (b64char (b0 / 4)) = some (b0 / 4) :=
      b64index_b64char _ (by omega)
    have h1 : b64index (b64char (b0 % 4 * 16)) = some (b0 % 4 * 16) :=
      b64index_b64char _ (by omega)
    simp [b64raw, b64decodeBody, h0, h1, show b0 % 4 * 16 % 16 = 0 by omega]
    omega
  | [b0, b1] => by
    intro h
    have hb0 : b0 < 256 := h b0 (by simp)
    have hb1 : b1 < 256 := h b1 (by simp)
    have h0 : b64index (b64char (b0 / 4)) = some (b0 / 4) :=
      b64index_b64char _ (by omega)
    have h1 : b64index (b64char (b0 % 4 * 16 + b1 / 16)) = some (b0 % 4 * 16 + b1 / 16) :=
      b64index_b64char _ (by omega)
    have h2 : b64index (b64char (b1 % 16 * 4)) = some (b1 % 16 * 4) :=
      b64index_b64char _ (by omega)
    simp [b64raw, b64decodeBody, h0, h1, h2, show b1 % 16 * 4 % 4 = 0 by omega]
    omega
  | b0 :: b1 :: b2 :: rest => by
    intro h
    have hb0 : b0 < 256 := h b0 (by simp)
    have hb1 : b1 < 256 := h b1 (by simp)
    have hb2 : b2 < 256 := h b2 (by simp)
    have ih := b64decodeBody_raw rest (fun b hb => h b (by simp [hb]))
    have h0 : b64index (b64char (b0 / 4)) = some (b0 / 4) :=
      b64index_b64char _ (by omega)
    have h1 : b64index (b64char (b0 % 4 * 16 + b1 / 16)) = some (b0 % 4 * 16 + b1 / 16) :=
      b64index_b64char _ (by omega)
    have h2 : b64index (b64char (b1 % 16 * 4 + b2 / 64)) = some (b1 % 16 * 4 + b2 / 64) :=
      b64index_b64char _ (by omega)
    have h3 : b64index (b64char (b2 % 64)) = some (b2 % 64) :=
      b64index_b64char _ (by omega)
    simp only [b64raw]
    rw [b64decodeBody_cons h0 h1 h2 h3 ih]
    simp
    omega

theorem b64decode_encode {bytes : List Nat} (h : ∀ b ∈ bytes, b < 256) :
    b64decode (b64encode bytes) = some bytes := by
  have hlen : (b64encode bytes).length =
      (b64raw bytes).length + (3 - bytes.length % 3) % 3 := by
    simp [b64encode]
  have hpad := padCount_encode bytes
  have htake : (b64encode bytes).take
      ((b64encode bytes).length - padCount (b64encode bytes)) = b64raw bytes := by
    rw [hpad, hlen]
    simp only [Nat.add_sub_cancel]
    unfold b64encode
    exact List.take_left _ _
  unfold b64decode
  rw [htake, hpad]
  have hmod := b64encode_length_mod4 bytes
  have hne : ¬(b64raw bytes).any (fun c => c = 61) := by
    simp only [List.any_eq_true, decide_eq_true_eq, not_exists]
    intro x hx
    exact b64raw_not_61 bytes (hx.2 ▸ hx.1)
  rw [if_neg (by omega), if_neg (by omega), if_neg hne]
  exact b64decodeBody_raw bytes h

theorem b64decodeBody_mem :
    ∀ (l : List Nat) (c : List Nat), b64decodeBody l = some c →
      ∀ x ∈ l, (b64index x).isSome
  | [] => by
    intro c _ x hx
    simp at hx
  | [c0] => by
    intro c h
    simp [b64decodeBody] at h
  | [c0, c1] => by
    intro c h x hx
    rcases h0 : b64index c0 with _ | i0 <;> rcases h1 : b64index c1 with _ | i1 <;>
      simp [b64decodeBody, h0, h1] at h <;> simp at hx <;>
      rcases hx with hx | hx <;> simp [hx, h0, h1]
  | [c0, c1, c2] => by
    intro c h x hx
    rcases h0 : b64index c0 with _ | i0 <;> rcases h1 : b64index c1 with _ | i1 <;>
      rcases h2 : b64index c2 with _ | i2 <;>
      simp [b64decodeBody, h0, h1, h2] at h <;> simp at hx <;>
      rcases hx with hx | hx | hx <;> simp [hx, h0, h1, h2]
  | c0 :: c1 :: c2 :: c3 :: rest => by
    intro c h x hx
    rcases h0 : b64index c0 with _ | i0 <;> rcases h1 : b64index c1 with _ | i1 <;>
      rcases h2 : b64index c2 with _ | i2 <;> rcases h3 : b64index c3 with _ | i3 <;>
      simp [b64decodeBody, h0, h1, h2, h3] at h
    rcases hrest : b64decodeBody rest with _ | bs
    · simp [b64decodeBody, h0, h1, h2, h3, hrest] at h
    · simp at hx
      rcases hx with hx | hx | hx | hx | hx
      · simp [hx, h0]
      · simp [hx, h1]
      · simp [hx, h2]
      · simp [hx, h3]
      · exact b64decodeBody_mem rest bs hrest x hx

theorem b64decode_chars {data : List Nat} {c : List Nat}
    (h : b64decode data = some c) :
    ∀ x ∈ data, x = 61 ∨ (b64index x).isSome := by
  intro x hx
  unfold b64decode at h
  split_ifs at h with h1 h2 h3
  have hsplit := padCount_split data
  rw [← hsplit] at hx
  rcases List.mem_append.1 hx with hm | hm
  · exact Or.inr (b64decodeBody_mem _ c h x hm)
  · exact Or.inl (List.eq_of_mem_replicate hm)

theorem b64decode_no_dot_no_quote {data : List Nat} {c : List Nat}
    (h : b64decode data = some c) : 46 ∉ data ∧ 34 ∉ data := by
  constructor <;> intro hm <;> rcases b64decode_chars h _ hm with h1 | h1 <;>
    simp [b64index] at h1 <;> omega

/-! ### Lemmas about the varu64 model -/

theorem beVal_append (l : List Nat) (b : Nat) :
    beVal (l ++ [b]) = beVal l * 256 + b := by
  simp [beVal, List.foldl_append]

theorem beBytes_length : ∀ k n, (beBytes k n).length = k := by
  intro k
  induction k with
  | zero => intro n; rfl
  | succ m ih => intro n; simp [beBytes, ih]

theorem beVal_beBytes : ∀ k n, n < 256 ^ k → beVal (beBytes k n) = n := by
  intro k
  induction k with
  | zero =>
    intro n h
    simp at h
    simp [h, beBytes, beVal]
  | succ m ih =>
    intro n h
    have hdiv : n / 256 < 256 ^ m := by
      rw [Nat.div_lt_iff_lt_mul (by omega)]
      rw [Nat.pow_succ] at h
      omega
    simp [beBytes, beVal_append, ih (n / 256) hdiv]
    omega

theorem varu64Decode_marker (k n : Nat) (t : List Nat) (h1 : 1 ≤ k)
    (hlt : n < 256 ^ k) (hmin : 256 ^ (k - 1) ≤ n) (h248 : k = 1 → 248 ≤ n) :
    varu64Decode ((247 + k) :: (beBytes k n ++ t)) = Except.ok (n, t) := by
  have hlen : (beBytes k n).length = k := beBytes_length k n
  have htake : (beBytes k n ++ t).take (247 + k - 247) = beBytes k n := by
    rw [show 247 + k - 247 = k by omega]
    exact List.take_left' hlen
  have hdrop : (beBytes k n ++ t).drop (247 + k - 247) = t := by
    rw [show 247 + k - 247 = k by omega]
    exact List.drop_left' hlen
  have hlen2 : ¬(beBytes k n ++ t).length < 247 + k - 247 := by
    simp only [List.length_append, hlen]
    omega
  have hcond : ¬(n < 256 ^ (247 + k - 248) ∨ (247 + k = 248 ∧ n < 248)) := by
    rw [show 247 + k - 248 = k - 1 by omega]
    push_neg
    exact ⟨hmin, fun hk => h248 (by omega)⟩
  simp only [varu64Decode]
  rw [if_neg (by omega), if_neg hlen2, htake, beVal_beBytes k n hlt, hdrop,
    if_neg hcond]

theorem varu64_roundtrip {n : Nat} (hn : n < 2 ^ 64) (t : List Nat) :
    varu64Decode (varu64Encode n ++ t) = Except.ok (n, t) := by
  unfold varu64Encode
  split_ifs with h1 h2 h3 h4 h5 h6 h7 h8
  · simp [varu64Decode, h1]
  · exact varu64Decode_marker 1 n t (by omega) (by norm_num; omega)
      (by norm_num; omega) (fun _ => by omega)
  · exact varu64Decode_marker 2 n t (by omega) (by norm_num at h3 ⊢; omega)
      (by norm_num at h2 ⊢; omega) (fun h => by omega)
  · exact varu64Decode_marker 3 n t (by omega) (by norm_num at h4 ⊢; omega)
      (by norm_num at h3 ⊢; omega) (fun h => by omega)
  · exact varu64Decode_marker 4 n t (by omega) (by norm_num at h5 ⊢; omega)
      (by norm_num at h4 ⊢; omega) (fun h => by omega)
  · exact varu64Decode_marker 5 n t (by omega) (by norm_num at h6 ⊢; omega)
      (by norm_num at h5 ⊢; omega) (fun h => by omega)
  · exact varu64Decode_marker 6 n t (by omega) (by norm_num at h7 ⊢; omega)
      (by norm_num at h6 ⊢; omega) (fun h => by omega)
  · exact varu64Decode_marker 7 n t (by omega) (by norm_num at h8 ⊢; omega)
      (by norm_num at h7 ⊢; omega) (fun h => by omega)
  · exact varu64Decode_marker 8 n t (by omega) (by norm_num at hn ⊢; omega)
      (by norm_num at h8 ⊢; omega) (fun h => by omega)

/-! ### Computation of `from_legacy` on a well-shaped input -/

theorem from_legacy_build_ok {data c : List Nat} (tail : List Nat)
    (hdot : 46 ∉ data) (hdec : b64decode data = some c)
    (hlen : data.length % 4 = 0) :
    from_legacy (data ++ 46 :: 98 :: 111 :: 120 :: 34 :: tail) =
      Except.ok (Multibox.PrivateBox c, tail) := by
  have h1 : split_at_byte (data ++ 46 :: 98 :: 111 :: 120 :: 34 :: tail) 46 =
      some (data, 98 :: 111 :: 120 :: 34 :: tail) := split_at_byte_append _ hdot
  simp [from_legacy, h1, dropLiteral, split_at_byte, hdec, hlen]

theorem from_legacy_build_pad {data c : List Nat} (tail : List Nat)
    (hdot : 46 ∉ data) (hdec : b64decode data = some c)
    (hlen : data.length % 4 ≠ 0) :
    from_legacy (data ++ 46 :: 98 :: 111 :: 120 :: 34 :: tail) =
      Except.error DecodeLegacyError.NoncanonicPadding := by
  have h1 : split_at_byte (data ++ 46 :: 98 :: 111 :: 120 :: 34 :: tail) 46 =
      some (data, 98 :: 111 :: 120 :: 34 :: tail) := split_at_byte_append _ hdot
  simp [from_legacy, h1, dropLiteral, split_at_byte, hdec, hlen]

/-! ### The claims -/

/-- C1: Legacy round-trip — for every `Multibox` `m` (payload made of byte
values) and every byte sequence `tail`, decoding `to_legacy m` followed by a
quote byte 0x22 and `tail` with `from_legacy` returns the pair of `m` and
exactly `tail`. -/
theorem legacy_roundtrip (m : Multibox) (h : ∀ b ∈ m.payload, b < 256)
    (tail : List Nat) :
    from_legacy (to_legacy m ++ 34 :: tail) = Except.ok (m, tail) := by
  cases m with
  | PrivateBox bytes =>
    simp only [Multibox.payload] at h
    have hdot : (46 : Nat) ∉ b64encode bytes := fun hm =>
      absurd rfl (b64encode_mem 46 hm).2.1
    have heq : to_legacy (Multibox.PrivateBox bytes) ++ 34 :: tail =
        b64encode bytes ++ 46 :: 98 :: 111 :: 120 :: 34 :: tail := by
      simp [to_legacy]
    rw [heq]
    exact from_legacy_build_ok tail hdot (b64decode_encode h)
      (b64encode_length_mod4 bytes)

/-- C1 witness: the round-trip at the concrete payload `[171, 205]` with
remainder `[7]`. -/
theorem legacy_roundtrip_witness :
    from_legacy (to_legacy (Multibox.PrivateBox [171, 205]) ++ 34 :: [7]) =
      Except.ok (Multibox.PrivateBox [171, 205], [7]) :=
  legacy_roundtrip (Multibox.PrivateBox [171, 205]) (by decide) [7]

/-- C4: Padding canonicality — when the data part before the dot decodes as
(lenient) standard base64 but its length is not a multiple of 4, `from_legacy`
on that data followed by `.box"` and any tail fails with
`NoncanonicPadding`. -/
theorem legacy_noncanonic_padding (data c tail : List Nat)
    (hdec : b64decode data = some c) (hlen : data.length % 4 ≠ 0) :
    from_legacy (data ++ 46 :: 98 :: 111 :: 120 :: 34 :: tail) =
      Except.error DecodeLegacyError.NoncanonicPadding :=
  from_legacy_build_pad tail (b64decode_no_dot_no_quote hdec).1 hdec hlen

/-- C4 witness: the two-character data `"lA"` ([108, 65]) decodes leniently
to `[148]` but has length 2, so the full input `"lA.box""` is rejected as
`NoncanonicPadding`. -/
theorem legacy_noncanonic_padding_witness :
    from_legacy ([108, 65] ++ 46 :: 98 :: 111 :: 120 :: 34 :: []) =
      Except.error DecodeLegacyError.NoncanonicPadding :=
  legacy_noncanonic_padding [108, 65] [148] [] (by rfl) (by decide)

/-- C7: Legacy encoder output shape — `to_legacy` writes exactly the
standard-padded base64 encoding of the payload followed by the literal
`.box` ([46, 98, 111, 120]), and no written byte is the quote 0x22. -/
theorem legacy_encoder_shape (m : Multibox) :
    to_legacy m = b64encode m.payload ++ [46, 98, 111, 120] ∧
      ∀ b ∈ to_legacy m, b ≠ 34 := by
  cases m with
  | PrivateBox bytes =>
    refine ⟨rfl, ?_⟩
    intro b hb
    simp only [to_legacy] at hb
    rcases List.mem_append.1 hb with h1 | h1
    · exact (b64encode_mem b h1).2.2
    · simp at h1
      omega

/-- C7 witness: the shape equation at payload `[148]`, and the byte 108
written for it is not a quote. -/
theorem legacy_encoder_shape_witness :
    to_legacy (Multibox.PrivateBox [148]) =
        b64encode [148] ++ [46, 98, 111, 120] ∧ (108 : Nat) ≠ 34 :=
  ⟨(legacy_encoder_shape (Multibox.PrivateBox [148])).1,
    (legacy_encoder_shape (Multibox.PrivateBox [148])).2 108 (by decide)⟩

/-- C9: Valid-text string form — every byte of `to_legacy_vec m` is ASCII
(hence valid UTF-8), and `to_legacy_string` returns exactly those bytes, so
the unchecked UTF-8 conversion is sound. -/
theorem legacy_string_valid (m : Multibox) :
    (∀ b ∈ to_legacy_vec m, b < 128) ∧ to_legacy_string m = to_legacy_vec m := by
  refine ⟨?_, rfl⟩
  intro b hb
  cases m with
  | PrivateBox bytes =>
    simp only [to_legacy_vec, to_legacy] at hb
    rcases List.mem_append.1 hb with h1 | h1
    · exact (b64encode_mem b h1).1
    · simp at h1
      omega

/-- C9 witness: the byte 108 of `to_legacy_vec (PrivateBox [148])` is ASCII
and the string form equals the vector form there. -/
theorem legacy_string_valid_witness :
    (108 : Nat) < 128 ∧
      to_legacy_string (Multibox.PrivateBox [148]) =
        to_legacy_vec (Multibox.PrivateBox [148]) :=
  ⟨(legacy_string_valid (Multibox.PrivateBox [148])).1 108 (by decide),
    (legacy_string_valid (Multibox.PrivateBox [148])).2⟩

/-- C2: Compact round-trip — for every `Multibox` `m` (payload length
representable as `u64`) and every byte sequence `tail`, decoding
`to_compact m ++ tail` with `from_compact` returns the pair of `m` and
exactly `tail`. -/
theorem compact_roundtrip (m : Multibox) (h : m.payload.length < 2 ^ 64)
    (tail : List Nat) :
    from_compact (to_compact m ++ tail) = some (Except.ok (m, tail)) := by
  cases m with
  | PrivateBox bytes =>
    simp only [Multibox.payload] at h
    have heq : to_compact (Multibox.PrivateBox bytes) ++ tail =
        0 :: (varu64Encode bytes.length ++ (bytes ++ tail)) := by
      simp [to_compact]
    rw [heq]
    have h0 : varu64Decode (0 :: (varu64Encode bytes.length ++ (bytes ++ tail))) =
        Except.ok (0, varu64Encode bytes.length ++ (bytes ++ tail)) := by
      simp [varu64Decode]
    have h1 := varu64_roundtrip h (bytes ++ tail)
    have h2 : ¬(bytes ++ tail).length < bytes.length := by
      simp
    simp [from_compact, h0, h1, h2, List.take_left, List.drop_left]

/-- C2 witness: the compact round-trip at the concrete payload `[171, 205]`
with remainder `[255]`. -/
theorem compact_roundtrip_witness :
    from_compact (to_compact (Multibox.PrivateBox [171, 205]) ++ [255]) =
      some (Except.ok (Multibox.PrivateBox [171, 205], [255])) :=
  compact_roundtrip (Multibox.PrivateBox [171, 205]) (by decide) [255]

/-- C3: Panic condition — `from_compact` aborts (modelled as `none`) exactly
when its first varu64 decode succeeds with a nonzero value; every other
input returns a normal value.  (All other operations are total functions of
the embedding: their only Rust panic site, the `unwrap` in `to_legacy_vec`,
is on a `Vec` write, which cannot fail.) -/
theorem compact_panic_iff (s : List Nat) :
    from_compact s = none ↔
      ∃ n rest, varu64Decode s = Except.ok (n, rest) ∧ n ≠ 0 := by
  unfold from_compact
  rcases hd : varu64Decode s with e | ⟨n, rest⟩
  · simp [hd]
  · by_cases hn : n = 0
    · subst hn
      rcases hd2 : varu64Decode rest with e2 | ⟨len, rest2⟩
      · simp [hd2]
      · by_cases hl : rest2.length < len <;> simp [hd2, hl]
    · simp only [hd]
      rw [if_pos hn]
      exact ⟨fun _ => ⟨n, rest, rfl, hn⟩, fun _ => rfl⟩

/-- C3 witness: on input `[1]` the first varu64 decode yields the nonzero
value 1, and `from_compact` indeed panics (is `none`). -/
theorem compact_panic_iff_witness : from_compact [1] = none :=
  (compact_panic_iff [1]).mpr ⟨1, [], rfl, by decide⟩

/-- C6: Compact decode length handling — when the first varu64 decodes to 0
and the second to `len`, `from_compact` fails with `NotEnoughInput` when
fewer than `len` bytes remain and otherwise returns the next `len` bytes as
the payload and the rest as the remainder; in particular on
`[0x00, 0x02, 0xAB, 0xCD, 0xFF]` it succeeds with payload `[0xAB, 0xCD]` and
remainder `[0xFF]`, and on `[0x00, 0x05, 0xAB]` it fails with
`NotEnoughInput`. -/
theorem compact_length_handling :
    (∀ (s t1 : List Nat) (len : Nat) (t2 : List Nat),
      varu64Decode s = Except.ok (0, t1) →
      varu64Decode t1 = Except.ok (len, t2) →
      (t2.length < len →
        from_compact s = some (Except.error DecodeCompactError.NotEnoughInput)) ∧
      (¬t2.length < len →
        from_compact s =
          some (Except.ok (Multibox.PrivateBox (t2.take len), t2.drop len)))) ∧
    from_compact [0, 2, 171, 205, 255] =
      some (Except.ok (Multibox.PrivateBox [171, 205], [255])) ∧
    from_compact [0, 5, 171] =
      some (Except.error DecodeCompactError.NotEnoughInput) := by
  refine ⟨?_, by rfl, by rfl⟩
  intro s t1 len t2 h1 h2
  constructor <;> intro hl <;> simp [from_compact, h1, h2, hl]

/-- C6 witness: the general part applied to the concrete spec scenarios
`[0x00, 0x02, 0xAB, 0xCD, 0xFF]` (success) and `[0x00, 0x05, 0xAB]`
(insufficient input). -/
theorem compact_length_handling_witness :
    from_compact [0, 2, 171, 205, 255] =
        some (Except.ok (Multibox.PrivateBox [171, 205], [255])) ∧
      from_compact [0, 5, 171] =
        some (Except.error DecodeCompactError.NotEnoughInput) :=
  ⟨by
    have h := (compact_length_handling.1 [0, 2, 171, 205, 255] [2, 171, 205, 255]
      2 [171, 205, 255] (by rfl) (by rfl)).2 (by decide)
    simpa using h,
   (compact_length_handling.1 [0, 5, 171] [5, 171] 5 [171]
      (by rfl) (by rfl)).1 (by decide)⟩

/-- C8: Zero-length payload support — `.box"` with empty data decodes to an
empty payload, `[0x00, 0x00]` decodes compactly to an empty payload, and
both encodings round-trip the empty payload. -/
theorem empty_payload_support (tail : List Nat) :
    from_legacy (46 :: 98 :: 111 :: 120 :: 34 :: tail) =
        Except.ok (Multibox.PrivateBox [], tail) ∧
      from_compact [0, 0] = some (Except.ok (Multibox.PrivateBox [], [])) ∧
      from_legacy (to_legacy (Multibox.PrivateBox []) ++ 34 :: tail) =
        Except.ok (Multibox.PrivateBox [], tail) ∧
      from_compact (to_compact (Multibox.PrivateBox []) ++ tail) =
        some (Except.ok (Multibox.PrivateBox [], tail)) := by
  have hleg : from_legacy (46 :: 98 :: 111 :: 120 :: 34 :: tail) =
      Except.ok (Multibox.PrivateBox [], tail) := by
    simpa using @from_legacy_build_ok [] [] tail (by simp) (by rfl) (by rfl)
  refine ⟨hleg, by rfl, ?_, ?_⟩
  · have heq : to_legacy (Multibox.PrivateBox []) ++ 34 :: tail =
        46 :: 98 :: 111 :: 120 :: 34 :: tail := by
      simp [to_legacy, b64encode, b64raw]
    rw [heq]
    exact hleg
  · have heq : to_compact (Multibox.PrivateBox []) ++ tail = 0 :: 0 :: tail := by
      simp [to_compact, varu64Encode]
    rw [heq]
    simp [from_compact, varu64Decode]

/-- C5: Legacy decode error discrimination — no dot yields `NoDot`; a
part after the first dot that does not begin with `box` yields
`UnknownSuffix`; no quote after `box` yields `NoTerminatingQuote`; nonempty
bytes between `box` and the first quote yield `UnknownSuffix`. -/
theorem legacy_error_discrimination :
    (∀ s : List Nat, 46 ∉ s →
      from_legacy s = Except.error DecodeLegacyError.NoDot) ∧
    (∀ s data suffix : List Nat, split_at_byte s 46 = some (data, suffix) →
      (∀ t, suffix ≠ 98 :: 111 :: 120 :: t) →
      from_legacy s = Except.error DecodeLegacyError.UnknownSuffix) ∧
    (∀ s data tail : List Nat,
      split_at_byte s 46 = some (data, 98 :: 111 :: 120 :: tail) →
      34 ∉ tail →
      from_legacy s = Except.error DecodeLegacyError.NoTerminatingQuote) ∧
    (∀ s data tail between rest : List Nat,
      split_at_byte s 46 = some (data, 98 :: 111 :: 120 :: tail) →
      split_at_byte tail 34 = some (between, rest) → between ≠ [] →
      from_legacy s = Except.error DecodeLegacyError.UnknownSuffix) := by
  refine ⟨?_, ?_, ?_, ?_⟩
  · intro s h
    simp [from_legacy, split_at_byte_of_not_mem h]
  · intro s data suffix h1 h2
    have hnone : dropLiteral suffix [98, 111, 120] = none :=
      dropLiteral_of_no_concat (fun t ht => h2 t (by simpa using ht))
    simp [from_legacy, h1, hnone]
  · intro s data tail h1 h2
    have hdl : dropLiteral (98 :: 111 :: 120 :: tail) [98, 111, 120] = some tail := by
      simpa using dropLiteral_append [98, 111, 120] tail
    simp [from_legacy, h1, hdl, split_at_byte_of_not_mem h2]
  · intro s data tail between rest h1 h2 hne
    have hdl : dropLiteral (98 :: 111 :: 120 :: tail) [98, 111, 120] = some tail := by
      simpa using dropLiteral_append [98, 111, 120] tail
    have hlen : between.length ≠ 0 := fun h0 => hne (List.length_eq_zero.1 h0)
    simp [from_legacy, h1, hdl, h2, hlen]

/-- C5 witness: the four error cases at the concrete inputs `"l"`, `".c"`,
`".box"` and `".boxx""`. -/
theorem legacy_error_discrimination_witness :
    from_legacy [108] = Except.error DecodeLegacyError.NoDot ∧
      from_legacy [46, 99] = Except.error DecodeLegacyError.UnknownSuffix ∧
      from_legacy [46, 98, 111, 120] =
        Except.error DecodeLegacyError.NoTerminatingQuote ∧
      from_legacy [46, 98, 111, 120, 120, 34] =
        Except.error DecodeLegacyError.UnknownSuffix := by
  refine ⟨legacy_error_discrimination.1 [108] (by decide),
    legacy_error_discrimination.2.1 [46, 99] [] [99] (by rfl) ?_,
    legacy_error_discrimination.2.2.1 [46, 98, 111, 120] [] [] (by rfl) (by decide),
    legacy_error_discrimination.2.2.2 [46, 98, 111, 120, 120, 34] [] [120, 34]
      [120] [] (by rfl) (by rfl) (by decide)⟩
  intro t ht
  simp at ht

/-- A successful varu64 decode consumes a determined prefix of its input:
the remainder is a suffix, and re-running the decoder on that prefix followed
by anything yields the same value and the new tail. -/
theorem varu64Decode_consumed {s : List Nat} {n : Nat} {r : List Nat}
    (h : varu64Decode s = Except.ok (n, r)) :
    ∃ p, s = p ++ r ∧ ∀ t, varu64Decode (p ++ t) = Except.ok (n, t) := by
  cases s with
  | nil => simp [varu64Decode] at h
  | cons b rest =>
    by_cases hb : b < 248
    · simp [varu64Decode, hb] at h
      obtain ⟨hn, hr⟩ := h
      subst hn
      subst hr
      exact ⟨[b], by simp, fun t => by simp [varu64Decode, hb]⟩
    · simp only [varu64Decode, if_neg hb] at h
      by_cases hlen : rest.length < b - 247
      · simp [hlen] at h
      · rw [if_neg hlen] at h
        by_cases hcond : beVal (rest.take (b - 247)) < 256 ^ (b - 248)
            ∨ (b = 248 ∧ beVal (rest.take (b - 247)) < 248)
        · simp [hcond] at h
        · rw [if_neg hcond] at h
          simp only [Except.ok.injEq, Prod.mk.injEq] at h
          obtain ⟨hn, hr⟩ := h
          have htl : (rest.take (b - 247)).length = b - 247 := by
            simp [List.length_take]
            omega
          refine ⟨b :: rest.take (b - 247), ?_, ?_⟩
          · rw [← hr]
            simp [List.take_append_drop]
          · intro t
            have hlen2 : ¬(rest.take (b - 247) ++ t).length < b - 247 := by
              simp [htl]
            simp only [List.cons_append, varu64Decode, if_neg hb, if_neg hlen2,
              List.take_left' htl, List.drop_left' htl, if_neg hcond]
            rw [hn]

/-- C10: Consumed-prefix invariant — whenever `from_legacy` or `from_compact`
succeeds with remainder `rest`, the input is a prefix `p` followed by exactly
`rest`, and decoding `p` followed by any other tail yields the same
`Multibox` with that tail: the result is determined entirely by `p`. -/
theorem decode_consumed_input :
    (∀ (s : List Nat) (m : Multibox) (rest : List Nat),
      from_legacy s = Except.ok (m, rest) →
      ∃ p, s = p ++ rest ∧ ∀ t, from_legacy (p ++ t) = Except.ok (m, t)) ∧
    (∀ (s : List Nat) (m : Multibox) (rest : List Nat),
      from_compact s = some (Except.ok (m, rest)) →
      ∃ p, s = p ++ rest ∧ ∀ t, from_compact (p ++ t) = some (Except.ok (m, t))) := by
  constructor
  · intro s m rest h
    unfold from_legacy at h
    rcases h1 : split_at_byte s 46 with _ | ⟨data, suffix⟩
    · simp [h1] at h
    · simp only [h1] at h
      rcases h2 : dropLiteral suffix [98, 111, 120] with _ | tail
      · simp [h2] at h
      · simp only [h2] at h
        rcases h3 : split_at_byte tail 34 with _ | ⟨between, tail2⟩
        · simp [h3] at h
        · simp only [h3] at h
          by_cases h4 : between.length ≠ 0
          · simp [h4] at h
          · rw [if_neg h4] at h
            rcases h5 : b64decode data with _ | c
            · simp [h5] at h
            · simp only [h5] at h
              by_cases h6 : data.length % 4 ≠ 0
              · simp [h6] at h
              · rw [if_neg h6] at h
                simp only [Except.ok.injEq, Prod.mk.injEq] at h
                obtain ⟨hm, hr⟩ := h
                obtain ⟨hs, hd46⟩ := split_at_byte_eq h1
                have hsuffix := dropLiteral_eq h2
                obtain ⟨ht, h34⟩ := split_at_byte_eq h3
                have hbet : between = [] := List.length_eq_zero.1 (by omega)
                refine ⟨data ++ [46, 98, 111, 120, 34], ?_, ?_⟩
                · rw [hs, hsuffix, ht, hbet, ← hr]
                  simp
                · intro t
                  have hb := from_legacy_build_ok t hd46 h5 (by omega)
                  rw [← hm]
                  simpa using hb
  · intro s m rest h
    unfold from_compact at h
    rcases h1 : varu64Decode s with e | ⟨n, t1⟩
    · simp [h1] at h
    · simp only [h1] at h
      by_cases hn : n ≠ 0
      · simp [hn] at h
      · rw [if_neg hn] at h
        have hn0 : n = 0 := by omega
        subst hn0
        rcases h2 : varu64Decode t1 with e2 | ⟨len, t2⟩
        · simp [h2] at h
        · simp only [h2] at h
          by_cases hl : t2.length < len
          · simp [hl] at h
          · rw [if_neg hl] at h
            simp only [Option.some.injEq, Except.ok.injEq, Prod.mk.injEq] at h
            obtain ⟨hm, hr⟩ := h
            obtain ⟨p1, hp1, hp1u⟩ := varu64Decode_consumed h1
            obtain ⟨p2, hp2, hp2u⟩ := varu64Decode_consumed h2
            have htl : (t2.take len).length = len := by
              simp [List.length_take]
              omega
            refine ⟨p1 ++ (p2 ++ t2.take len), ?_, ?_⟩
            · rw [hp1, hp2, ← hr]
              simp [List.take_append_drop]
            · intro t
              have e1 := hp1u (p2 ++ (t2.take len ++ t))
              have e2 := hp2u (t2.take len ++ t)
              have hassoc : (p1 ++ (p2 ++ t2.take len)) ++ t =
                  p1 ++ (p2 ++ (t2.take len ++ t)) := by
                simp
              have hlen2 : ¬(t2.take len ++ t).length < len := by
                simp [htl]
              rw [hassoc]
              unfold from_compact
              simp only [e1, e2, if_neg hlen2, List.take_left' htl,
                List.drop_left' htl, hm]
              simp

/-- C10 witness: the consumed-prefix property applied to the successful
legacy decode of `".box"x"` and the successful compact decode of
`[0, 1, 9, 8]`. -/
theorem decode_consumed_input_witness :
    (∃ p, [46, 98, 111, 120, 34, 120] = p ++ [120] ∧
      ∀ t, from_legacy (p ++ t) = Except.ok (Multibox.PrivateBox [], t)) ∧
    (∃ p, [0, 1, 9, 8] = p ++ [8] ∧
      ∀ t, from_compact (p ++ t) = some (Except.ok (Multibox.PrivateBox [9], t))) :=
  ⟨decode_consumed_input.1 [46, 98, 111, 120, 34, 120] (Multibox.PrivateBox [])
      [120] (by rfl),
    decode_consumed_input.2 [0, 1, 9, 8] (Multibox.PrivateBox [9]) [8] (by rfl)⟩

end Multiformats
